import Mathlib

/-!
Verification of the job-control subsystem of `tsh.c` (a tiny shell with
job control).  The C code is shallowly embedded: the fixed-size global
array `struct job_t jobs[MAXJOBS]` becomes a `List job_t` of length 16,
the global `int nextjid` is passed and returned explicitly, C `int`s and
`pid_t`s become `Int`, and every printf/kill/waitfg side effect is
recorded in the returned result structure.  Signal handlers are modelled
as pure functions of the job table plus the sequence of `waitpid`
results the kernel would hand them.
-/

namespace Tsh

/-- `#define MAXJOBS 16` : max jobs at any point in time. -/
def MAXJOBS : Int := 16

/-- Job state `#define UNDEF 0`. -/
def UNDEF : Int := 0

/-- Job state `#define FG 1` (running in foreground). -/
def FG : Int := 1

/-- Job state `#define BG 2` (running in background). -/
def BG : Int := 2

/-- Job state `#define ST 3` (stopped). -/
def ST : Int := 3

/-- `struct job_t`: job PID, job ID, state, command line. -/
structure job_t where
  pid : Int
  jid : Int
  state : Int
  cmdline : String
deriving DecidableEq

/-- `clearjob`: the cleared slot value (pid 0, jid 0, state UNDEF, empty
command line).  In C `clearjob` mutates a slot in place; here it is the
value the slot is overwritten with. -/
def clearjob : job_t := { pid := 0, jid := 0, state := UNDEF, cmdline := "" }

/-- `initjobs`: all MAXJOBS slots cleared. -/
def initjobs : List job_t := List.replicate 16 clearjob

/-- The loop body of `maxjid`: `if (jobs[i].jid > max) max = jobs[i].jid`. -/
def maxjidStep (max : Int) (j : job_t) : Int := if j.jid > max then j.jid else max

/-- `maxjid` - returns largest allocated job ID (loop with accumulator
starting at 0). -/
def maxjid (jobs : List job_t) : Int := jobs.foldl maxjidStep 0

/-- Result of `addjob`: the C return value (`int`, nonzero on success),
the job array after the call, and the global `nextjid` after the call. -/
structure AddResult where
  ok : Bool
  jobs : List job_t
  nextjid : Int
deriving DecidableEq

/-- The scan loop of `addjob`: find the first slot with `pid == 0`, fill
it, assign `nextjid++` (wrapping to 1 when it exceeds MAXJOBS); if the
loop falls through the table is full and 0 is returned. -/
def addjobLoop (pid state : Int) (cmdline : String) (nextjid : Int) :
    List job_t → AddResult
  | [] => ⟨false, [], nextjid⟩
  | j :: rest =>
    if j.pid = 0 then
      ⟨true,
       { pid := pid, jid := nextjid, state := state, cmdline := cmdline } :: rest,
       if nextjid + 1 > MAXJOBS then 1 else nextjid + 1⟩
    else
      let r := addjobLoop pid state cmdline nextjid rest
      ⟨r.ok, j :: r.jobs, r.nextjid⟩

/-- `addjob` - add a job to the job list.  Rejects `pid < 1` up front,
otherwise scans for the first empty slot. -/
def addjob (jobs : List job_t) (pid state : Int) (cmdline : String)
    (nextjid : Int) : AddResult :=
  if pid < 1 then ⟨false, jobs, nextjid⟩
  else addjobLoop pid state cmdline nextjid jobs

/-- Result of `deletejob`: C return value, job array, global `nextjid`. -/
structure DelResult where
  ok : Bool
  jobs : List job_t
  nextjid : Int
deriving DecidableEq

/-- The scan loop of `deletejob`: clear the first slot whose pid matches. -/
def deletejobLoop (pid : Int) : List job_t → Bool × List job_t
  | [] => (false, [])
  | j :: rest =>
    if j.pid = pid then (true, clearjob :: rest)
    else
      let r := deletejobLoop pid rest
      (r.1, j :: r.2)

/-- `deletejob` - delete a job whose PID=pid from the job list.  On
success the global `nextjid` is recomputed as `maxjid(jobs) + 1`. -/
def deletejob (jobs : List job_t) (pid : Int) (nextjid : Int) : DelResult :=
  if pid < 1 then ⟨false, jobs, nextjid⟩
  else
    let r := deletejobLoop pid jobs
    if r.1 then ⟨true, r.2, maxjid r.2 + 1⟩ else ⟨false, r.2, nextjid⟩

/-- The scan loop of `getjobpid`, carrying the index so that the returned
pointer `&jobs[i]` is modelled as the pair (index, slot value). -/
def getjobpidLoop (pid : Int) (i : Nat) : List job_t → Option (Nat × job_t)
  | [] => none
  | j :: rest => if j.pid = pid then some (i, j) else getjobpidLoop pid (i + 1) rest

/-- `getjobpid` - find a job (by PID) on the job list; NULL becomes `none`. -/
def getjobpid (jobs : List job_t) (pid : Int) : Option (Nat × job_t) :=
  if pid < 1 then none else getjobpidLoop pid 0 jobs

/-- The scan loop of `getjobjid`, carrying the index (see `getjobpidLoop`). -/
def getjobjidLoop (jid : Int) (i : Nat) : List job_t → Option (Nat × job_t)
  | [] => none
  | j :: rest => if j.jid = jid then some (i, j) else getjobjidLoop jid (i + 1) rest

/-- `getjobjid` - find a job (by JID) on the job list; NULL becomes `none`. -/
def getjobjid (jobs : List job_t) (jid : Int) : Option (Nat × job_t) :=
  if jid < 1 then none else getjobjidLoop jid 0 jobs

example : maxjid initjobs = 0 := by decide
example : (addjob initjobs 100 BG "sleep 5 &\n" 1).ok = true := by decide
example : (addjob initjobs 100 BG "x" 1).nextjid = 2 := by decide
example : (deletejob (addjob initjobs 100 BG "x" 1).jobs 100 2).nextjid = 1 := by decide
example : getjobpid (addjob initjobs 100 BG "x" 1).jobs 100 =
    some (0, { pid := 100, jid := 1, state := BG, cmdline := "x" }) := by decide

/-! ## parseline -/

/-- `while (*buf && (*buf == ' ')) buf++;` : skip leading spaces (the
string terminator `'\0'` is the end of the list). -/
def skipSpaces : List Char → List Char
  | [] => []
  | c :: rest => if c = ' ' then skipSpaces rest else c :: rest

/-- `strchr(buf, c)` followed by `*delim = '\0'; buf = delim + 1;` :
split the buffer at the first occurrence of `c`, giving the token before
it and the rest after it, or `none` when `strchr` returns NULL. -/
def strchrSplit (c : Char) : List Char → Option (List Char × List Char)
  | [] => none
  | x :: rest =>
    if x = c then some ([], rest)
    else
      match strchrSplit c rest with
      | none => none
      | some (a, b) => some (x :: a, b)

theorem skipSpaces_length : ∀ l : List Char, (skipSpaces l).length ≤ l.length := by
  intro l
  induction l with
  | nil => simp [skipSpaces]
  | cons x rest ih =>
    by_cases hx : x = ' '
    · simpa [skipSpaces, hx] using Nat.le_succ_of_le ih
    · simp [skipSpaces, hx]

theorem strchrSplit_length {c : Char} :
    ∀ {l a b : List Char}, strchrSplit c l = some (a, b) → b.length < l.length := by
  intro l
  induction l with
  | nil => intro a b h; simp [strchrSplit] at h
  | cons x rest ih =>
    intro a b h
    by_cases hx : x = c
    · simp [strchrSplit, hx] at h
      obtain ⟨_, hb⟩ := h
      subst hb
      simp
    · simp only [strchrSplit, if_neg hx] at h
      cases hr : strchrSplit c rest with
      | none => rw [hr] at h; simp at h
      | some p =>
        rw [hr] at h
        obtain ⟨a', b'⟩ := p
        simp at h
        obtain ⟨_, hb⟩ := h
        subst hb
        exact Nat.lt_succ_of_lt (ih hr)

/-- The `while (delim)` tokenizing loop of `parseline`: at each step,
if the buffer starts with a single quote the delimiter searched for is
the closing quote (and the quote itself is skipped), otherwise a space;
when a delimiter is found the token before it is appended to `argv` and
the scan resumes after the delimiter and any following spaces; when
`strchr` finds nothing the loop ends (a trailing unterminated token is
dropped).  The loop shortens the buffer at every iteration, so running
it with `buf.length` steps of fuel is the loop itself
(`buildArgvFuel_congr` below shows the fuel bound is never reached). -/
def buildArgvFuel : Nat → List Char → List (List Char)
  | 0, _ => []
  | fuel + 1, buf =>
    match (if buf.head? = some '\'' then strchrSplit '\'' buf.tail
           else strchrSplit ' ' buf) with
    | none => []
    | some (tok, rest) => tok :: buildArgvFuel fuel (skipSpaces rest)

/-- The tokenizing loop of `parseline` (see `buildArgvFuel`). -/
def buildArgv (buf : List Char) : List (List Char) :=
  buildArgvFuel buf.length buf

theorem buildArgvFuel_congr :
    ∀ f1 f2 buf, buf.length ≤ f1 → buf.length ≤ f2 →
      buildArgvFuel f1 buf = buildArgvFuel f2 buf := by
  intro f1
  induction f1 with
  | zero =>
    intro f2 buf h1 _
    have hb : buf = [] := List.length_eq_zero.mp (Nat.le_zero.mp h1)
    subst hb
    cases f2 with
    | zero => rfl
    | succ g => simp [buildArgvFuel, strchrSplit]
  | succ f ih =>
    intro f2 buf h1 h2
    cases f2 with
    | zero =>
      have hb : buf = [] := List.length_eq_zero.mp (Nat.le_zero.mp h2)
      subst hb
      simp [buildArgvFuel, strchrSplit]
    | succ g =>
      simp only [buildArgvFuel]
      cases hp : (if buf.head? = some '\'' then strchrSplit '\'' buf.tail
                  else strchrSplit ' ' buf) with
      | none => rfl
      | some p =>
        obtain ⟨tok, rest⟩ := p
        have hr : rest.length < buf.length := by
          by_cases hq : buf.head? = some '\''
          · rw [if_pos hq] at hp
            have hl := strchrSplit_length hp
            cases buf with
            | nil => simp at hq
            | cons x r => simp at hl ⊢; omega
          · rw [if_neg hq] at hp
            exact strchrSplit_length hp
        have hs := skipSpaces_length rest
        have := ih g (skipSpaces rest) (by omega) (by omega)
        simp [this]

/-- Result of `parseline`: the argv array built, the value stored through
the `argc_dest` out-parameter (`none` when the blank-line early return is
taken before the store), and the return value (truthy = background). -/
structure ParselineResult where
  argv : List (List Char)
  argcSet : Option Nat
  bg : Bool
deriving DecidableEq

/-- `parseline` - parse the command line and build the argv array.
Replaces the trailing newline with a space, skips leading spaces,
tokenizes, returns 1 on a blank line (before writing `argc_dest`), else
strips a trailing argument starting with `&` and reports background. -/
def parseline (cmdline : List Char) : ParselineResult :=
  let buf0 : List Char :=
    match cmdline with
    | [] => []
    | l => l.dropLast ++ [' ']
  let buf := skipSpaces buf0
  let argv := buildArgv buf
  let argc := argv.length
  if argc = 0 then
    ⟨argv, none, true⟩
  else if (argv.getLastD []).head? = some '&' then
    ⟨argv.dropLast, some (argc - 1), true⟩
  else
    ⟨argv, some argc, false⟩

example : parseline "\n".toList = ⟨[], none, true⟩ := by decide
example : parseline "ls -l\n".toList =
    ⟨["ls".toList, "-l".toList], some 2, false⟩ := by decide
example : parseline "sleep 5 &\n".toList =
    ⟨["sleep".toList, "5".toList], some 2, true⟩ := by decide
example : parseline "echo 'a b' c\n".toList =
    ⟨["echo".toList, "a b".toList, "c".toList], some 3, false⟩ := by decide

/-! ## do_bgfg and waitfg -/

/-- C `isspace` for the characters `strtol` skips. -/
def isspace (c : Char) : Bool :=
  c = ' ' || c = '\t' || c = '\n' || c = '\x0b' || c = '\x0c' || c = '\r'

/-- The digit-consuming loop of `strtol` (base 10). -/
def strtolDigits (acc : Int) : List Char → Int × List Char
  | [] => (acc, [])
  | c :: rest =>
    if c.isDigit then strtolDigits (acc * 10 + ((c.toNat : Int) - ('0'.toNat : Int))) rest
    else (acc, c :: rest)

/-- `strtol(s, &endptr, 10)`: skip leading whitespace, accept an optional
sign, consume decimal digits; the second component is where `endptr` is
left pointing (the whole original string when no conversion happened). -/
def strtol10 (s : List Char) : Int × List Char :=
  let afterWs := s.dropWhile isspace
  match afterWs with
  | '-' :: rest =>
    (match rest with
     | c :: _ => if c.isDigit then (let r := strtolDigits 0 rest; (-r.1, r.2)) else (0, s)
     | [] => (0, s))
  | '+' :: rest =>
    (match rest with
     | c :: _ => if c.isDigit then strtolDigits 0 rest else (0, s)
     | [] => (0, s))
  | c :: _ => if c.isDigit then strtolDigits 0 afterWs else (0, s)
  | [] => (0, s)

/-- The `%`-prefix handling of `do_bgfg`: `is_jid` and `id_str` after
`if (id_str[0] == '%') { is_jid = 1; id_str++; }`. -/
def parseIdArg (a : String) : Bool × List Char :=
  match a.toList with
  | '%' :: rest => (true, rest)
  | l => (false, l)

/-- `SIGCONT` (Linux). -/
def SIGCONT : Int := 18

/-- Everything observable about one `do_bgfg` call: the job table after
the call, the lines printed (stdout and stderr are merged, as the shell
itself does with `dup2(1, 2)`; `verbose` is 0 so the FLOGINFO logging
prints nothing), the `kill` calls made as (first argument, signal)
pairs, and the pid passed to `waitfg` when it is invoked. -/
structure BgfgResult where
  jobs : List job_t
  output : List String
  signals : List (Int × Int)
  waitsFor : Option Int
deriving DecidableEq

/-- `do_bgfg` - execute the builtin bg and fg commands. -/
def do_bgfg (argc : Nat) (argv : List String) (jobs : List job_t) : BgfgResult :=
  let a0 := argv.headD ""
  if argc ≠ 2 then
    ⟨jobs, [a0 ++ " command requires PID or %jobid argument\n"], [], none⟩
  else
    let a1 := (argv.drop 1).headD ""
    let p := parseIdArg a1
    let is_jid := p.1
    let r := strtol10 p.2
    if r.2 ≠ [] then
      ⟨jobs, [a0 ++ ": argument must be a PID or %jobid\n"], [], none⟩
    else
      let id := r.1
      match (if is_jid then getjobjid jobs id else getjobpid jobs id) with
      | none =>
        ⟨jobs,
         [if is_jid then "%" ++ toString id ++ ": No such job\n"
          else "(" ++ toString id ++ "): No such process\n"],
         [], none⟩
      | some (i, job) =>
        if a0 = "bg" then
          ⟨jobs.set i { job with state := BG },
           ["[" ++ toString job.jid ++ "] (" ++ toString job.pid ++ ") " ++ job.cmdline],
           [(-job.pid, SIGCONT)], none⟩
        else
          ⟨jobs.set i { job with state := FG }, [], [(-job.pid, SIGCONT)],
           some job.pid⟩

/-- The loop condition of `waitfg`:
`job = getjobpid(jobs, pid); waiting = (job && job->state == FG)`. -/
def fgWaiting (jobs : List job_t) (pid : Int) : Bool :=
  match getjobpid jobs pid with
  | some (_, j) => j.state = FG
  | none => false

/-- `waitfg` - block until process pid is no longer the foreground
process.  The loop re-reads the job table only after `pause()` returns,
i.e. after a signal handler has run, so its behaviour is a function of
the successive table snapshots it observes: the snapshot at entry
followed by one snapshot per delivered signal.  `some k` means the loop
returned after pausing `k` times; `none` means it was still blocked when
the given snapshots ran out. -/
def waitfg (snaps : List (List job_t)) (pid : Int) : Option Nat :=
  match snaps with
  | [] => none
  | t :: rest =>
    if fgWaiting t pid then (waitfg rest pid).map (· + 1) else some 0

example : strtol10 "100".toList = (100, []) := by decide
example : strtol10 "%7".toList = (0, "%7".toList) := by decide
example : strtol10 " -42x".toList = (-42, ['x']) := by decide
example : parseIdArg "%7" = (true, ['7']) := by decide
example :
    do_bgfg 2 ["fg", "%7"] initjobs =
      ⟨initjobs, ["%7: No such job\n"], [], none⟩ := by decide
example :
    do_bgfg 1 ["bg"] initjobs =
      ⟨initjobs, ["bg command requires PID or %jobid argument\n"], [], none⟩ := by
  decide

/-! ## sigchld_handler -/

/-- The status word `waitpid` stores, already discriminated the way the
handler does with `WIFEXITED` / `WIFSIGNALED` / `WIFSTOPPED`; `other`
is a status none of the three macros accepts. -/
inductive ChildStatus where
  | exited (code : Int)
  | signaled (sig : Int)
  | stopped (sig : Int)
  | other (status : Int)
deriving DecidableEq

/-- Everything observable about one `sigchld_handler` invocation: job
table and `nextjid` after it, lines printed, and whether the
`unix_error` path (which exits the shell) was taken. -/
structure ChldResult where
  jobs : List job_t
  nextjid : Int
  output : List String
  fatal : Bool
deriving DecidableEq

/-- `sigchld_handler`, as a function of the queue of `(pid, status)`
results successive `waitpid(-1, &status, WNOHANG|WUNTRACED)` calls would
return (the currently-reapable children, in reap order; an empty queue
means `waitpid` returns ≤ 0 at once).  Each of the three status branches
of the loop body ends in `return`, so the rest of the queue is never
looked at.  `none` models the crash in the stopped-child branch, where
`getjobpid`'s result is dereferenced (`job->state = ST`) without a NULL
check. -/
def sigchld_handler (queue : List (Int × ChildStatus)) (jobs : List job_t)
    (nextjid : Int) : Option ChldResult :=
  match queue with
  | [] => some ⟨jobs, nextjid, [], false⟩
  | (pid, status) :: _rest =>
    match status with
    | .exited _ =>
      let r := deletejob jobs pid nextjid
      some ⟨r.jobs, r.nextjid, [], false⟩
    | .signaled _ =>
      let r := deletejob jobs pid nextjid
      some ⟨r.jobs, r.nextjid, [], false⟩
    | .stopped sig =>
      match getjobpid jobs pid with
      | none => none
      | some (i, job) =>
        some ⟨jobs.set i { job with state := ST }, nextjid,
              ["Job [" ++ toString job.jid ++ "] (" ++ toString pid ++
               ") stopped by signal " ++ toString sig ++ "\n"],
              false⟩
    | .other _ => some ⟨jobs, nextjid, [], true⟩

/-! ## Sequences of add/remove operations on the job table

The spec's invariant claims quantify over sequences of `addjob` /
`deletejob` calls starting from the initialized table, with the global
`nextjid` threaded through exactly as the C globals are. -/

/-- One job-table operation. -/
inductive Op where
  | add (pid state : Int) (cmd : String)
  | del (pid : Int)
deriving DecidableEq

/-- Apply one operation to the (job array, nextjid) pair. -/
def applyOp (s : List job_t × Int) (op : Op) : List job_t × Int :=
  match op with
  | .add pid st cmd =>
    let r := addjob s.1 pid st cmd s.2
    (r.jobs, r.nextjid)
  | .del pid =>
    let r := deletejob s.1 pid s.2
    (r.jobs, r.nextjid)

/-- Run a sequence of operations from the freshly initialized state
(`initjobs`, `nextjid = 1`). -/
def runOps (ops : List Op) : List job_t × Int :=
  ops.foldl applyOp (initjobs, 1)

/-- The pids of the non-empty slots (a slot is empty iff its pid is 0). -/
def livePids (jobs : List job_t) : List Int :=
  (jobs.filter fun j => j.pid != 0).map job_t.pid

/-- How many non-empty slots are in Foreground state. -/
def fgCount (jobs : List job_t) : Nat :=
  jobs.countP fun j => j.pid != 0 && j.state == FG

/-! ### Structural facts about the addjob / deletejob scan loops -/

theorem addjobLoop_spec (pid st : Int) (cmd : String) (nj : Int) :
    ∀ l : List job_t,
      ((∀ j ∈ l, j.pid ≠ 0) ∧ addjobLoop pid st cmd nj l = ⟨false, l, nj⟩) ∨
      (∃ l1 j l2, l = l1 ++ j :: l2 ∧ j.pid = 0 ∧ (∀ x ∈ l1, x.pid ≠ 0) ∧
        addjobLoop pid st cmd nj l =
          ⟨true, l1 ++ { pid := pid, jid := nj, state := st, cmdline := cmd } :: l2,
           if nj + 1 > MAXJOBS then 1 else nj + 1⟩) := by
  intro l
  induction l with
  | nil => left; exact ⟨by simp, rfl⟩
  | cons j rest ih =>
    by_cases hj : j.pid = 0
    · right
      exact ⟨[], j, rest, by simp, hj, by simp, by simp [addjobLoop, hj]⟩
    · rcases ih with ⟨hall, heq⟩ | ⟨l1, j0, l2, hl, hj0, hl1, heq⟩
      · left
        refine ⟨fun x hx => ?_, ?_⟩
        · rcases List.mem_cons.mp hx with h | h
          · rw [h]; exact hj
          · exact hall x h
        · simp [addjobLoop, hj, heq]
      · right
        refine ⟨j :: l1, j0, l2, by rw [hl]; rfl, hj0, ?_, ?_⟩
        · intro x hx
          rcases List.mem_cons.mp hx with h | h
          · rw [h]; exact hj
          · exact hl1 x h
        · simp [addjobLoop, hj, heq]

theorem deletejobLoop_spec (pid : Int) :
    ∀ l : List job_t,
      ((∀ j ∈ l, j.pid ≠ pid) ∧ deletejobLoop pid l = (false, l)) ∨
      (∃ l1 j l2, l = l1 ++ j :: l2 ∧ j.pid = pid ∧ (∀ x ∈ l1, x.pid ≠ pid) ∧
        deletejobLoop pid l = (true, l1 ++ clearjob :: l2)) := by
  intro l
  induction l with
  | nil => left; exact ⟨by simp, rfl⟩
  | cons j rest ih =>
    by_cases hj : j.pid = pid
    · right
      exact ⟨[], j, rest, by simp, hj, by simp, by simp [deletejobLoop, hj]⟩
    · rcases ih with ⟨hall, heq⟩ | ⟨l1, j0, l2, hl, hj0, hl1, heq⟩
      · left
        refine ⟨fun x hx => ?_, ?_⟩
        · rcases List.mem_cons.mp hx with h | h
          · rw [h]; exact hj
          · exact hall x h
        · simp [deletejobLoop, hj, heq]
      · right
        refine ⟨j :: l1, j0, l2, by rw [hl]; rfl, hj0, ?_, ?_⟩
        · intro x hx
          rcases List.mem_cons.mp hx with h | h
          · rw [h]; exact hj
          · exact hl1 x h
        · simp [deletejobLoop, hj, heq]

theorem getjobpidLoop_none_iff (pid : Int) :
    ∀ (l : List job_t) (i : Nat),
      getjobpidLoop pid i l = none ↔ ∀ j ∈ l, j.pid ≠ pid := by
  intro l
  induction l with
  | nil => intro i; simp [getjobpidLoop]
  | cons j rest ih =>
    intro i
    by_cases hj : j.pid = pid
    · simp [getjobpidLoop, hj]
    · simp [getjobpidLoop, hj, ih]

theorem livePids_append (a b : List job_t) :
    livePids (a ++ b) = livePids a ++ livePids b := by
  simp [livePids]

theorem livePids_cons (j : job_t) (l : List job_t) :
    livePids (j :: l) = if j.pid = 0 then livePids l else j.pid :: livePids l := by
  by_cases hj : j.pid = 0 <;> simp [livePids, List.filter_cons, hj]

theorem mem_livePids {a : Int} {l : List job_t} :
    a ∈ livePids l ↔ ∃ j ∈ l, j.pid ≠ 0 ∧ j.pid = a := by
  simp [livePids, List.mem_filter]
  constructor
  · rintro ⟨j, ⟨hm, hn⟩, ha⟩
    exact ⟨j, hm, hn, ha⟩
  · rintro ⟨j, hm, hn, ha⟩
    exact ⟨j, ⟨hm, hn⟩, ha⟩

theorem fgCount_append (a b : List job_t) :
    fgCount (a ++ b) = fgCount a + fgCount b := by
  simp [fgCount, List.countP_append]

theorem fgCount_cons (j : job_t) (l : List job_t) :
    fgCount (j :: l) =
      fgCount l + (if j.pid ≠ 0 ∧ j.state = FG then 1 else 0) := by
  by_cases h1 : j.pid = 0
  · simp [fgCount, List.countP_cons, h1]
  · by_cases h2 : j.state = FG <;> simp [fgCount, List.countP_cons, h1, h2]

/-- The table invariant claimed by the spec: no two non-empty slots share
a pid, and at most one non-empty slot is in Foreground state. -/
def TableInv (jobs : List job_t) : Prop :=
  (livePids jobs).Nodup ∧ fgCount jobs ≤ 1

/-- The side condition under which one `addjob` call preserves
`TableInv`: the inserted pid is not already a live pid, and a Foreground
job is only inserted while no Foreground job is present. -/
def okAdd (jobs : List job_t) (pid st : Int) : Prop :=
  (∀ j ∈ jobs, j.pid = 0 ∨ j.pid ≠ pid) ∧ (st = FG → fgCount jobs = 0)

theorem addjob_pres {jobs : List job_t} {pid st : Int} {cmd : String} {nj : Int}
    (hinv : TableInv jobs) (hok : okAdd jobs pid st) :
    TableInv (addjob jobs pid st cmd nj).jobs := by
  obtain ⟨hnodup, hfg⟩ := hinv
  obtain ⟨hfresh, hfgok⟩ := hok
  by_cases hp : pid < 1
  · rw [addjob, if_pos hp]; exact ⟨hnodup, hfg⟩
  · rw [addjob, if_neg hp]
    rcases addjobLoop_spec pid st cmd nj jobs with ⟨_, heq⟩ | ⟨l1, j, l2, hl, hj0, _, heq⟩
    · rw [heq]; exact ⟨hnodup, hfg⟩
    · rw [heq]
      subst hl
      have hpid0 : pid ≠ 0 := by omega
      have hnot1 : pid ∉ livePids l1 := by
        intro hmem
        obtain ⟨x, hx, hxn, hxp⟩ := mem_livePids.mp hmem
        rcases hfresh x (by simp [hx]) with h | h
        · exact hxn h
        · exact h hxp
      have hnot2 : pid ∉ livePids l2 := by
        intro hmem
        obtain ⟨x, hx, hxn, hxp⟩ := mem_livePids.mp hmem
        rcases hfresh x (by simp [hx]) with h | h
        · exact hxn h
        · exact h hxp
      have hlive0 : livePids (l1 ++ j :: l2) = livePids l1 ++ livePids l2 := by
        rw [livePids_append, livePids_cons, if_pos hj0]
      have hlive1 :
          livePids (l1 ++ { pid := pid, jid := nj, state := st, cmdline := cmd } :: l2) =
            livePids l1 ++ pid :: livePids l2 := by
        rw [livePids_append, livePids_cons]
        simp [hpid0]
      have hcnt0 : fgCount (l1 ++ j :: l2) = fgCount l1 + fgCount l2 := by
        rw [fgCount_append, fgCount_cons]
        simp [hj0]
      have hcnt1 :
          fgCount (l1 ++ { pid := pid, jid := nj, state := st, cmdline := cmd } :: l2) =
            fgCount l1 + fgCount l2 + (if st = FG then 1 else 0) := by
        rw [fgCount_append, fgCount_cons]
        simp [hpid0]
        omega
      rw [hlive0] at hnodup
      rw [hcnt0] at hfg
      constructor
      · rw [hlive1]
        rw [List.nodup_append] at hnodup ⊢
        refine ⟨hnodup.1, ?_, ?_⟩
        · exact List.nodup_cons.mpr ⟨hnot2, hnodup.2.1⟩
        · intro a ha h
          rcases List.mem_cons.mp h with rfl | hmem
          · exact hnot1 ha
          · exact hnodup.2.2 ha hmem
      · rw [hcnt1]
        by_cases hst : st = FG
        · have h0 := hfgok hst
          rw [hcnt0] at h0
          rw [if_pos hst]
          omega
        · rw [if_neg hst]
          omega

theorem deletejob_pres {jobs : List job_t} {pid nj : Int}
    (hinv : TableInv jobs) : TableInv (deletejob jobs pid nj).jobs := by
  obtain ⟨hnodup, hfg⟩ := hinv
  by_cases hp : pid < 1
  · rw [deletejob, if_pos hp]; exact ⟨hnodup, hfg⟩
  · rw [deletejob, if_neg hp]
    rcases deletejobLoop_spec pid jobs with ⟨_, heq⟩ | ⟨l1, j, l2, hl, hjp, _, heq⟩
    · simp only [heq]
      exact ⟨hnodup, hfg⟩
    · simp only [heq, if_true]
      subst hl
      have hj0 : j.pid ≠ 0 := by rw [hjp]; omega
      rw [livePids_append, livePids_cons, if_neg hj0] at hnodup
      rw [fgCount_append, fgCount_cons] at hfg
      have hlive1 : livePids (l1 ++ clearjob :: l2) = livePids l1 ++ livePids l2 := by
        rw [livePids_append, livePids_cons]
        simp [clearjob]
      have hcnt1 : fgCount (l1 ++ clearjob :: l2) = fgCount l1 + fgCount l2 := by
        rw [fgCount_append, fgCount_cons]
        simp [clearjob]
      constructor
      · rw [hlive1]
        rw [List.nodup_append] at hnodup ⊢
        refine ⟨hnodup.1, (List.nodup_cons.mp hnodup.2.1).2, ?_⟩
        · intro a ha
          exact fun hmem => hnodup.2.2 ha (List.mem_cons_of_mem _ hmem)
      · rw [hcnt1]
        omega

/-- A sequence of operations each of whose `addjob` steps satisfies
`okAdd` at the state it runs in (deletions are unrestricted). -/
inductive GoodOps : (List job_t × Int) → List Op → Prop
  | nil (s) : GoodOps s []
  | add (s pid st cmd ops) : okAdd s.1 pid st →
      GoodOps (applyOp s (Op.add pid st cmd)) ops →
      GoodOps s (Op.add pid st cmd :: ops)
  | del (s pid ops) :
      GoodOps (applyOp s (Op.del pid)) ops →
      GoodOps s (Op.del pid :: ops)

theorem goodOps_inv {s : List job_t × Int} {ops : List Op}
    (hg : GoodOps s ops) (hinv : TableInv s.1) :
    TableInv (ops.foldl applyOp s).1 := by
  induction hg with
  | nil s => exact hinv
  | add s pid st cmd ops hok _ ih =>
    exact ih (addjob_pres hinv hok)
  | del s pid ops _ ih =>
    exact ih (deletejob_pres hinv)

/-! ### maxjid and the nextjid counter -/

theorem maxjidStep_eq (m : Int) (j : job_t) : maxjidStep m j = max m j.jid := by
  unfold maxjidStep
  by_cases h : j.jid > m
  · rw [if_pos h, max_eq_right (le_of_lt h)]
  · rw [if_neg h, max_eq_left (not_lt.mp h)]

theorem foldl_maxjidStep (l : List job_t) :
    ∀ a b : Int, l.foldl maxjidStep (max a b) = max a (l.foldl maxjidStep b) := by
  induction l with
  | nil => intro a b; rfl
  | cons j rest ih =>
    intro a b
    show List.foldl maxjidStep (maxjidStep (max a b) j) rest =
      max a (List.foldl maxjidStep (maxjidStep b j) rest)
    rw [maxjidStep_eq, maxjidStep_eq, max_assoc, ih]

theorem maxjid_cons (j : job_t) (l : List job_t) :
    maxjid (j :: l) = max j.jid (maxjid l) := by
  show List.foldl maxjidStep (maxjidStep 0 j) l = _
  rw [maxjidStep_eq, max_comm, foldl_maxjidStep]
  rfl

theorem maxjid_nonneg (l : List job_t) : 0 ≤ maxjid l := by
  induction l with
  | nil => exact le_refl 0
  | cons j rest ih =>
    rw [maxjid_cons]
    exact le_trans ih (le_max_right _ _)

theorem maxjid_append (a b : List job_t) :
    maxjid (a ++ b) = max (maxjid a) (maxjid b) := by
  induction a with
  | nil =>
    show maxjid b = max (maxjid []) (maxjid b)
    have h0 : maxjid ([] : List job_t) = 0 := rfl
    rw [h0, max_eq_right (maxjid_nonneg b)]
  | cons j rest ih =>
    show maxjid (j :: (rest ++ b)) = _
    rw [maxjid_cons, ih, ← max_assoc, ← maxjid_cons]

theorem addjob_maxjid {jobs : List job_t} {pid st : Int} {cmd : String} {nj : Int}
    (hinv : maxjid jobs < nj) (hnw : nj + 1 ≤ MAXJOBS) :
    maxjid (addjob jobs pid st cmd nj).jobs < (addjob jobs pid st cmd nj).nextjid ∧
      ((addjob jobs pid st cmd nj).ok = true →
        maxjid (addjob jobs pid st cmd nj).jobs = nj ∧
          (addjob jobs pid st cmd nj).nextjid = nj + 1) := by
  by_cases hp : pid < 1
  · rw [addjob, if_pos hp]
    exact ⟨hinv, by intro h; exact absurd h (by simp)⟩
  · rw [addjob, if_neg hp]
    rcases addjobLoop_spec pid st cmd nj jobs with ⟨_, heq⟩ | ⟨l1, j, l2, hl, _, _, heq⟩
    · rw [heq]
      exact ⟨hinv, by intro h; exact absurd h (by simp)⟩
    · rw [heq]
      subst hl
      have h1 : maxjid l1 ≤ maxjid (l1 ++ j :: l2) := by
        rw [maxjid_append]
        exact le_max_left _ _
      have h2 : maxjid l2 ≤ maxjid (l1 ++ j :: l2) := by
        rw [maxjid_append, maxjid_cons]
        exact le_trans (le_max_right _ _) (le_max_right _ _)
      have hnew :
          maxjid (l1 ++ { pid := pid, jid := nj, state := st, cmdline := cmd } :: l2) = nj := by
        rw [maxjid_append, maxjid_cons]
        show max (maxjid l1) (max nj (maxjid l2)) = nj
        rw [max_eq_left (le_of_lt (lt_of_le_of_lt h2 hinv)),
            max_eq_right (le_of_lt (lt_of_le_of_lt h1 hinv))]
      have hwrap : ¬ (nj + 1 > MAXJOBS) := not_lt.mpr hnw
      simp only [hwrap, if_false]
      refine ⟨?_, fun _ => ⟨?_, ?_⟩⟩
      · show maxjid _ < nj + 1
        rw [hnew]
        omega
      · exact hnew
      · trivial

theorem deletejob_maxjid {jobs : List job_t} {pid nj : Int}
    (hinv : maxjid jobs < nj) :
    maxjid (deletejob jobs pid nj).jobs < (deletejob jobs pid nj).nextjid := by
  by_cases hp : pid < 1
  · rw [deletejob, if_pos hp]
    exact hinv
  · rw [deletejob, if_neg hp]
    rcases deletejobLoop_spec pid jobs with ⟨_, heq⟩ | ⟨l1, j, l2, hl, _, _, heq⟩
    · simp only [heq]
      exact hinv
    · simp only [heq, if_true]
      omega

theorem deletejob_nextjid_recompute {jobs : List job_t} {pid nj : Int}
    (hok : (deletejob jobs pid nj).ok = true) :
    (deletejob jobs pid nj).nextjid = maxjid (deletejob jobs pid nj).jobs + 1 := by
  by_cases hp : pid < 1
  · rw [deletejob, if_pos hp] at hok
    exact absurd hok (by simp)
  · rw [deletejob, if_neg hp] at hok ⊢
    rcases deletejobLoop_spec pid jobs with ⟨_, heq⟩ | ⟨l1, j, l2, hl, _, _, heq⟩
    · simp only [heq] at hok
      exact absurd hok (by simp)
    · simp only [heq, if_true]

/-- A sequence of operations during which the nextjid counter never
wraps: every `addjob` step runs with `nextjid + 1 ≤ MAXJOBS`. -/
inductive MonoOps : (List job_t × Int) → List Op → Prop
  | nil (s) : MonoOps s []
  | add (s pid st cmd ops) : s.2 + 1 ≤ MAXJOBS →
      MonoOps (applyOp s (Op.add pid st cmd)) ops →
      MonoOps s (Op.add pid st cmd :: ops)
  | del (s pid ops) :
      MonoOps (applyOp s (Op.del pid)) ops →
      MonoOps s (Op.del pid :: ops)

theorem monoOps_inv {s : List job_t × Int} {ops : List Op}
    (hm : MonoOps s ops) (hinv : maxjid s.1 < s.2) :
    maxjid (ops.foldl applyOp s).1 < (ops.foldl applyOp s).2 := by
  induction hm with
  | nil s => exact hinv
  | add s pid st cmd ops hnw _ ih =>
    exact ih (addjob_maxjid hinv hnw).1
  | del s pid ops _ ih =>
    exact ih (deletejob_maxjid hinv)

theorem addjob_assigned {jobs : List job_t} {pid st : Int} {cmd : String} {nj : Int}
    (hinv : maxjid jobs < nj) (hok : (addjob jobs pid st cmd nj).ok = true) :
    maxjid (addjob jobs pid st cmd nj).jobs = nj := by
  by_cases hp : pid < 1
  · rw [addjob, if_pos hp] at hok
    exact absurd hok (by simp)
  · rw [addjob, if_neg hp] at hok ⊢
    rcases addjobLoop_spec pid st cmd nj jobs with ⟨_, heq⟩ | ⟨l1, j, l2, hl, _, _, heq⟩
    · rw [heq] at hok
      exact absurd hok (by simp)
    · rw [heq]
      subst hl
      have h1 : maxjid l1 ≤ maxjid (l1 ++ j :: l2) := by
        rw [maxjid_append]
        exact le_max_left _ _
      have h2 : maxjid l2 ≤ maxjid (l1 ++ j :: l2) := by
        rw [maxjid_append, maxjid_cons]
        exact le_trans (le_max_right _ _) (le_max_right _ _)
      show maxjid (l1 ++ _ :: l2) = nj
      rw [maxjid_append, maxjid_cons]
      show max (maxjid l1) (max nj (maxjid l2)) = nj
      rw [max_eq_left (le_of_lt (lt_of_le_of_lt h2 hinv)),
          max_eq_right (le_of_lt (lt_of_le_of_lt h1 hinv))]

/-! ### The waitfg loop -/

theorem fgWaiting_iff (t : List job_t) (p : Int) :
    fgWaiting t p = true ↔ ∃ i j, getjobpid t p = some (i, j) ∧ j.state = FG := by
  unfold fgWaiting
  cases h : getjobpid t p with
  | none => simp
  | some x =>
    obtain ⟨i, j⟩ := x
    simp only [h]
    simp only [decide_eq_true_eq, Option.some.injEq, Prod.mk.injEq]
    constructor
    · intro hf
      exact ⟨i, j, ⟨rfl, rfl⟩, hf⟩
    · rintro ⟨i1, j1, ⟨rfl, rfl⟩, hf⟩
      exact hf

theorem waitfg_iff (pid : Int) :
    ∀ (snaps : List (List job_t)) (k : Nat),
      waitfg snaps pid = some k ↔
        k < snaps.length ∧ fgWaiting (snaps.getD k []) pid = false ∧
          ∀ m, m < k → fgWaiting (snaps.getD m []) pid = true := by
  intro snaps
  induction snaps with
  | nil => intro k; simp [waitfg]
  | cons t rest ih =>
    intro k
    by_cases hw : fgWaiting t pid = true
    · simp only [waitfg, hw, if_true]
      cases k with
      | zero =>
        constructor
        · intro h
          rcases Option.map_eq_some'.mp h with ⟨a, _, ha⟩
          omega
        · rintro ⟨_, hf, _⟩
          rw [List.getD_cons_zero, hw] at hf
          cases hf
      | succ j =>
        have hmap : ((waitfg rest pid).map (· + 1) = some (j + 1)) ↔
            waitfg rest pid = some j := by
          cases hwf : waitfg rest pid with
          | none => simp
          | some a => simp
        rw [hmap, ih j]
        constructor
        · rintro ⟨h1, h2, h3⟩
          refine ⟨by simpa using Nat.succ_lt_succ h1, by simpa using h2, ?_⟩
          intro m hm
          cases m with
          | zero => simpa using hw
          | succ m2 => simpa using h3 m2 (by omega)
        · rintro ⟨h1, h2, h3⟩
          refine ⟨by simpa using h1, by simpa using h2, ?_⟩
          intro m hm
          simpa using h3 (m + 1) (by omega)
    · have hw2 : fgWaiting t pid = false := by
        cases hb : fgWaiting t pid
        · rfl
        · exact absurd hb hw
      simp only [waitfg, hw2, Bool.false_eq_true, if_false]
      cases k with
      | zero =>
        constructor
        · intro _
          refine ⟨by simp, ?_, fun m hm => absurd hm (by omega)⟩
          rw [List.getD_cons_zero]
          exact hw2
        · intro _
          rfl
      | succ j =>
        constructor
        · intro h
          exact absurd h (by simp)
        · rintro ⟨_, _, h3⟩
          have h0 := h3 0 (by omega)
          rw [List.getD_cons_zero, hw2] at h0
          cases h0

/-! ## Concrete tables used by the claim theorems and witnesses -/

/-- A table holding two background jobs, pids 100 and 101. -/
def c1Jobs : List job_t :=
  (addjob (addjob initjobs 100 BG "a\n" 1).jobs 101 BG "b\n" 2).jobs

/-- A table holding one stopped job, pid 100, jid 1. -/
def wJobs : List job_t := (addjob initjobs 100 ST "sleep 5\n" 1).jobs

/-- A full table: 16 slots with pids (and jids) 1..16. -/
def fullJobs : List job_t :=
  (List.range 16).map fun i =>
    { pid := (i : Int) + 1, jid := (i : Int) + 1, state := BG, cmdline := "x\n" }

/-- The table of the spec's scenario: only the job pid 100 present. -/
def scenJobs : List job_t := (addjob initjobs 100 BG "sleep 5 &\n" 1).jobs

/-! ## The claims -/

/-- Claim C1 (code bug, evidence): `sigchld_handler`'s own comments say it
"reaps all available zombie children" in one invocation, and its loop is
written for that, but every status branch of the loop body ends in
`return`, so only the first reapable child is processed.  Here two
children (pids 100 and 101) are simultaneously reapable (both exited)
and the table holds both; one invocation removes pid 100 from the table
but leaves pid 101 present (and, the queue being consumed no further,
unprocessed). -/
theorem claim1_first_child_only :
    (sigchld_handler [(100, ChildStatus.exited 0), (101, ChildStatus.exited 0)]
        c1Jobs 3).map
        (fun r => ((getjobpid r.jobs 100).isSome, (getjobpid r.jobs 101).isSome)) =
      some (false, true) := by decide

/-- Claim C4 (counterexample): the claim says the empty input line yields
zero arguments and background=false; `parseline` does yield zero
arguments, but its blank-line early return is `return 1`, i.e.
background=true, so the claimed conjunction is false. -/
theorem claim4_counterexample :
    ¬ ((parseline "\n".toList).argv.length = 0 ∧
        (parseline "\n".toList).bg = false) := by decide

/-- Claim C4 (amended): for the empty input line `parseline` yields zero
arguments, leaves the caller's argc out-parameter unwritten, and returns
1 — a background report, not a foreground one. -/
theorem claim4_amended :
    (parseline "\n".toList).argv = [] ∧ (parseline "\n".toList).bg = true ∧
      (parseline "\n".toList).argcSet = none := by decide

/-- Claim C6: `addjob` fails by returning 0 with the table and the
nextjid counter left exactly as they were, whenever `pid < 1` or no slot
is empty (every slot's pid is nonzero, i.e. the table is full). -/
theorem claim6_addjob_full_or_badpid :
    ∀ (jobs : List job_t) (pid st : Int) (cmd : String) (nj : Int),
      (pid < 1 ∨ ∀ j ∈ jobs, j.pid ≠ 0) →
      addjob jobs pid st cmd nj = ⟨false, jobs, nj⟩ := by
  intro jobs pid st cmd nj h
  by_cases hp : pid < 1
  · rw [addjob, if_pos hp]
  · rw [addjob, if_neg hp]
    rcases h with h | h
    · exact absurd h hp
    · rcases addjobLoop_spec pid st cmd nj jobs with ⟨_, heq⟩ | ⟨l1, j, l2, hl, hj0, _, _⟩
      · exact heq
      · exact absurd hj0
          (h j (by rw [hl]; exact List.mem_append_right _ (List.mem_cons_self _ _)))

/-- Claim C6 witness: the 17th add against the full capacity-16 table
returns false and leaves all 16 entries and the counter unchanged. -/
theorem claim6_witness :
    (∀ j ∈ fullJobs, j.pid ≠ 0) ∧
      addjob fullJobs 17 BG "y\n" 1 = ⟨false, fullJobs, 1⟩ :=
  ⟨by decide, claim6_addjob_full_or_badpid fullJobs 17 BG "y\n" 1 (Or.inr (by decide))⟩

/-- Claim C10: in `sigchld_handler`'s stopped-child branch the result of
`getjobpid` is dereferenced (`job->state = ST`) with no NULL check, so
the branch is safe exactly when a job with the reaped pid is in the
table: if the lookup fails the handler crashes (`none`), and if it
succeeds the handler marks that slot Stopped and prints the stop notice. -/
theorem claim10_stopped_deref :
    ∀ (jobs : List job_t) (nj pid sig : Int),
      (getjobpid jobs pid = none →
        sigchld_handler [(pid, ChildStatus.stopped sig)] jobs nj = none) ∧
      (∀ i job, getjobpid jobs pid = some (i, job) →
        sigchld_handler [(pid, ChildStatus.stopped sig)] jobs nj =
          some ⟨jobs.set i { job with state := ST }, nj,
            ["Job [" ++ toString job.jid ++ "] (" ++ toString pid ++
             ") stopped by signal " ++ toString sig ++ "\n"], false⟩) := by
  intro jobs nj pid sig
  constructor
  · intro h
    simp [sigchld_handler, h]
  · intro i job h
    simp [sigchld_handler, h]

/-- Claim C10 witness: with pid 100 present the stopped branch succeeds
and marks it Stopped; with pid 55 absent the handler dereferences NULL. -/
theorem claim10_witness :
    sigchld_handler [(100, ChildStatus.stopped 20)] wJobs 2 =
      some ⟨wJobs.set 0 { pid := 100, jid := 1, state := ST, cmdline := "sleep 5\n" },
        2, ["Job [1] (100) stopped by signal 20\n"], false⟩ ∧
    sigchld_handler [(55, ChildStatus.stopped 20)] wJobs 2 = none := by
  constructor
  · have h := (claim10_stopped_deref wJobs 2 100 20).2 0
      { pid := 100, jid := 1, state := ST, cmdline := "sleep 5\n" } (by decide)
    rw [h]
    decide
  · exact (claim10_stopped_deref wJobs 2 55 20).1 (by decide)

/-- Claim C8: when `do_bgfg` gets a well-formed id (a bare integer or a
`%`-prefixed integer, fully consumed by `strtol`) that resolves to no
job, it prints the error in the id form the user supplied — `%<id>: No
such job` for a job id, `(<id>): No such process` for a pid — sends no
signal, does not call `waitfg`, and leaves the table unchanged. -/
theorem claim8_no_such_job :
    ∀ (jobs : List job_t) (cmd a1 : String) (isj : Bool) (ids : List Char) (id : Int),
      parseIdArg a1 = (isj, ids) → strtol10 ids = (id, []) →
      (if isj then getjobjid jobs id else getjobpid jobs id) = none →
      do_bgfg 2 [cmd, a1] jobs =
        ⟨jobs,
         [if isj then "%" ++ toString id ++ ": No such job\n"
          else "(" ++ toString id ++ "): No such process\n"],
         [], none⟩ := by
  intro jobs cmd a1 isj ids id h1 h2 h3
  simp only [do_bgfg, List.headD, List.drop, h1, h2, h3]
  simp

/-- Claim C8 witness: `fg %7` with no job of jid 7. -/
theorem claim8_witness :
    do_bgfg 2 ["fg", "%7"] initjobs =
      ⟨initjobs, ["%7: No such job\n"], [], none⟩ := by
  have h := claim8_no_such_job initjobs "fg" "%7" true ['7'] 7 (by decide) (by decide)
    (by decide)
  rw [h]
  decide

/-- Claim C9: a `do_bgfg` call whose argument vector does not have
exactly two entries, or whose second argument is not a bare or
`%`-prefixed integer (`strtol` leaves unconsumed characters), prints the
respective usage error and has no side effect: no signal is sent, no
`waitfg` call is made, and the table is returned unchanged. -/
theorem claim9_usage_errors :
    (∀ (jobs : List job_t) (argc : Nat) (argv : List String), argc ≠ 2 →
      do_bgfg argc argv jobs =
        ⟨jobs, [argv.headD "" ++ " command requires PID or %jobid argument\n"],
         [], none⟩) ∧
    (∀ (jobs : List job_t) (cmd a1 : String) (v : Int) (rest : List Char),
      strtol10 (parseIdArg a1).2 = (v, rest) → rest ≠ [] →
      do_bgfg 2 [cmd, a1] jobs =
        ⟨jobs, [cmd ++ ": argument must be a PID or %jobid\n"], [], none⟩) := by
  constructor
  · intro jobs argc argv h
    simp only [do_bgfg, if_pos h]
  · intro jobs cmd a1 v rest h1 h2
    simp only [do_bgfg, List.headD, List.drop, h1, h2]
    simp [h2]

/-- Claim C9 witness: `bg` with no argument, and `bg abc` with a
malformed argument, both report usage errors and change nothing. -/
theorem claim9_witness :
    do_bgfg 1 ["bg"] initjobs =
      ⟨initjobs, ["bg command requires PID or %jobid argument\n"], [], none⟩ ∧
    do_bgfg 2 ["bg", "abc"] initjobs =
      ⟨initjobs, ["bg: argument must be a PID or %jobid\n"], [], none⟩ := by
  constructor
  · have h := claim9_usage_errors.1 initjobs 1 ["bg"] (by decide)
    rw [h]
    decide
  · have h := claim9_usage_errors.2 initjobs "bg" "abc" 0 "abc".toList (by decide)
      (by decide)
    rw [h]
    decide

/-- Claim C5: resuming a job that is present in the table: `bg` sends
SIGCONT to the job's process group, sets the job's state to Background,
prints the `[jid] (pid) command_line` confirmation and does not call
`waitfg` (it returns at once); `fg` sends SIGCONT, sets the state to
Foreground and calls `waitfg` on the job's pid.  The `waitfg` loop (last
two conjuncts) returns after exactly `k` pauses iff the `k`-th table
snapshot it observes is the first in which the waiting condition fails,
and that condition holds iff a job with that pid is present and in
Foreground state — so the caller stays blocked until the job is no
longer present or no longer Foreground. -/
theorem claim5_resume :
    ∀ (jobs : List job_t) (a1 : String) (isj : Bool) (ids : List Char) (id : Int)
      (i : Nat) (job : job_t),
      parseIdArg a1 = (isj, ids) → strtol10 ids = (id, []) →
      (if isj then getjobjid jobs id else getjobpid jobs id) = some (i, job) →
      do_bgfg 2 ["bg", a1] jobs =
        ⟨jobs.set i { job with state := BG },
         ["[" ++ toString job.jid ++ "] (" ++ toString job.pid ++ ") " ++ job.cmdline],
         [(-job.pid, SIGCONT)], none⟩ ∧
      do_bgfg 2 ["fg", a1] jobs =
        ⟨jobs.set i { job with state := FG }, [], [(-job.pid, SIGCONT)],
         some job.pid⟩ ∧
      (∀ (snaps : List (List job_t)) (k : Nat),
        waitfg snaps job.pid = some k ↔
          k < snaps.length ∧ fgWaiting (snaps.getD k []) job.pid = false ∧
            ∀ m, m < k → fgWaiting (snaps.getD m []) job.pid = true) ∧
      (∀ t : List job_t, fgWaiting t job.pid = true ↔
        ∃ i2 j2, getjobpid t job.pid = some (i2, j2) ∧ j2.state = FG) := by
  intro jobs a1 isj ids id i job h1 h2 h3
  refine ⟨?_, ?_, waitfg_iff job.pid, fun t => fgWaiting_iff t job.pid⟩
  · simp only [do_bgfg, List.headD, List.drop, h1, h2, h3]
    simp
  · simp only [do_bgfg, List.headD, List.drop, h1, h2, h3]
    simp

/-- Claim C5 witness: resuming the stopped job pid 100 of `wJobs` by pid. -/
theorem claim5_witness :
    do_bgfg 2 ["bg", "100"] wJobs =
      ⟨wJobs.set 0 { pid := 100, jid := 1, state := BG, cmdline := "sleep 5\n" },
       ["[1] (100) sleep 5\n"], [(-100, SIGCONT)], none⟩ ∧
    do_bgfg 2 ["fg", "100"] wJobs =
      ⟨wJobs.set 0 { pid := 100, jid := 1, state := FG, cmdline := "sleep 5\n" },
       [], [(-100, SIGCONT)], some 100⟩ := by
  have h := claim5_resume wJobs "100" false "100".toList 100 0
    { pid := 100, jid := 1, state := ST, cmdline := "sleep 5\n" }
    (by decide) (by decide) (by decide)
  constructor
  · rw [h.1]
    decide
  · rw [h.2.1]

/-- Claim C2 (counterexample): `addjob` never checks whether the pid
being inserted is already in the table nor whether a Foreground entry
already exists, so the two-step sequence add(5, FG), add(5, FG) from the
initialized table ends with two non-empty entries of pid 5, both in
Foreground state — refuting the claim for arbitrary add/remove
sequences. -/
theorem claim2_counterexample :
    ¬ ((livePids (runOps [Op.add 5 FG "x\n", Op.add 5 FG "x\n"]).1).Nodup ∧
        fgCount (runOps [Op.add 5 FG "x\n", Op.add 5 FG "x\n"]).1 ≤ 1) := by decide

/-- Claim C2 (amended): for every sequence of add and remove operations
from the initialized table in which each add inserts a pid that is not
currently the pid of a non-empty slot and inserts Foreground state only
while no non-empty slot is Foreground (as is the case for the shell,
whose pids come from live `fork` results and which adds a foreground job
only while waiting on none), the table never holds two non-empty entries
with the same non-zero pid and never more than one non-empty entry in
Foreground state. -/
theorem claim2_table_invariant :
    ∀ ops : List Op, GoodOps (initjobs, 1) ops →
      (livePids (runOps ops).1).Nodup ∧ fgCount (runOps ops).1 ≤ 1 := by
  intro ops hg
  exact goodOps_inv hg ⟨by decide, by decide⟩

/-- Claim C2 witness: a concrete guarded sequence. -/
theorem claim2_witness :
    GoodOps (initjobs, 1) [Op.add 5 FG "x\n", Op.del 5, Op.add 6 FG "y\n"] ∧
      (livePids (runOps [Op.add 5 FG "x\n", Op.del 5, Op.add 6 FG "y\n"]).1).Nodup ∧
      fgCount (runOps [Op.add 5 FG "x\n", Op.del 5, Op.add 6 FG "y\n"]).1 ≤ 1 := by
  have hg : GoodOps (initjobs, 1) [Op.add 5 FG "x\n", Op.del 5, Op.add 6 FG "y\n"] := by
    apply GoodOps.add _ _ _ _ _ (by unfold okAdd; decide)
    apply GoodOps.del
    apply GoodOps.add _ _ _ _ _ (by unfold okAdd; decide)
    exact GoodOps.nil _
  exact ⟨hg, claim2_table_invariant _ hg⟩

/-- `jobs.any (fun j => j.pid == 0)`: the table has an empty slot. -/
def notFull (jobs : List job_t) : Bool := jobs.any fun j => j.pid == 0

/-- Whether, along a run of `ops`, the table has an empty slot at the
moment of every add operation ("the table is never full at an
insertion"). -/
def neverFullAtAdds : (List job_t × Int) → List Op → Bool
  | _, [] => true
  | s, op :: rest =>
    (match op with
     | Op.add _ _ _ => notFull s.1
     | Op.del _ => true) && neverFullAtAdds (applyOp s op) rest

/-- The 16 adds of pids 1..16. -/
def c3AddOps : List Op := (List.range 16).map fun i => Op.add ((i : Int) + 1) BG "x\n"

/-- Deletions leaving only the job with jid 15, driving nextjid to 16. -/
def c3DelOps : List Op := ((List.range 14).map fun i => Op.del ((i : Int) + 1)) ++ [Op.del 16]

/-- Adds, deletions, and the add of pid 100, which receives jid 16 and
wraps nextjid to 1 with the table far from full. -/
def c3PreOps : List Op := c3AddOps ++ c3DelOps ++ [Op.add 100 BG "x\n"]

/-- `c3PreOps` followed by the add of pid 101, which receives jid 1. -/
def c3Ops : List Op := c3PreOps ++ [Op.add 101 BG "x\n"]

set_option maxRecDepth 40000 in
/-- Claim C3 (counterexample): along `c3Ops` the table is never full at
any insertion, yet after `c3PreOps` the table still holds jids 15 and 16
(maxjid = 16) while nextjid has wrapped to 1, and the next add succeeds
and assigns jid 1 — which is not strictly greater than the job ids
present at that insertion. -/
theorem claim3_counterexample :
    neverFullAtAdds (initjobs, 1) c3Ops = true ∧
    maxjid (runOps c3PreOps).1 = 16 ∧
    (addjob (runOps c3PreOps).1 101 BG "x\n" (runOps c3PreOps).2).ok = true ∧
    (∃ j ∈ (addjob (runOps c3PreOps).1 101 BG "x\n" (runOps c3PreOps).2).jobs,
      j.pid = 101 ∧ j.jid = 1) ∧
    ¬ ((1 : Int) > maxjid (runOps c3PreOps).1) := by decide

/-- Claim C3 (amended): for every sequence of add and remove operations
in which the nextjid counter never wraps — each add runs with
`nextjid + 1 ≤ MAXJOBS`; the original "table never full at an insertion"
condition does not prevent wrapping, see the counterexample — every job
id present stays strictly below nextjid, so the id a successful add
assigns (nextjid, which becomes the new maximum job id) is strictly
greater than every job id present at that insertion; and every
successful deletion recomputes nextjid as max(remaining job ids) + 1. -/
theorem claim3_monotonic :
    ∀ ops : List Op, MonoOps (initjobs, 1) ops →
      maxjid (runOps ops).1 < (runOps ops).2 ∧
      (∀ (pid st : Int) (cmd : String),
        (addjob (runOps ops).1 pid st cmd (runOps ops).2).ok = true →
        maxjid (addjob (runOps ops).1 pid st cmd (runOps ops).2).jobs =
          (runOps ops).2) ∧
      (∀ (jobs : List job_t) (pid nj : Int),
        (deletejob jobs pid nj).ok = true →
        (deletejob jobs pid nj).nextjid = maxjid (deletejob jobs pid nj).jobs + 1) := by
  intro ops hm
  have hinv : maxjid (runOps ops).1 < (runOps ops).2 := monoOps_inv hm (by decide)
  exact ⟨hinv, fun pid st cmd hok => addjob_assigned hinv hok,
    fun jobs pid nj hok => deletejob_nextjid_recompute hok⟩

/-- Claim C3 witness: a concrete non-wrapping sequence. -/
theorem claim3_witness :
    MonoOps (initjobs, 1) [Op.add 100 BG "x\n", Op.del 100, Op.add 101 BG "x\n"] ∧
      maxjid (runOps [Op.add 100 BG "x\n", Op.del 100, Op.add 101 BG "x\n"]).1 <
        (runOps [Op.add 100 BG "x\n", Op.del 100, Op.add 101 BG "x\n"]).2 := by
  have hm : MonoOps (initjobs, 1) [Op.add 100 BG "x\n", Op.del 100, Op.add 101 BG "x\n"] := by
    apply MonoOps.add _ _ _ _ _ (by decide)
    apply MonoOps.del
    apply MonoOps.add _ _ _ _ _ (by decide)
    exact MonoOps.nil _
  exact ⟨hm, (claim3_monotonic _ hm).1⟩

/-- Claim C7: deleting a pid that is present in a table satisfying the
spec's pid-uniqueness invariant succeeds; afterwards `getjobpid` for
that pid returns not-found, and the freed slot makes any subsequent add
with a valid pid succeed.  Second conjunct: the spec's scenario — with
only the job pid 100 present, deleting pid 100 leaves a table without
pid 100 and `maxjid` returns 0. -/
theorem claim7_delete_frees :
    (∀ (jobs : List job_t) (pid nj : Int),
      1 ≤ pid → pid ∈ livePids jobs → (livePids jobs).Nodup →
      (deletejob jobs pid nj).ok = true ∧
      getjobpid (deletejob jobs pid nj).jobs pid = none ∧
      (∀ (p2 st : Int) (cmd : String) (nj2 : Int), 1 ≤ p2 →
        (addjob (deletejob jobs pid nj).jobs p2 st cmd nj2).ok = true)) ∧
    (getjobpid (deletejob scenJobs 100 2).jobs 100 = none ∧
      maxjid (deletejob scenJobs 100 2).jobs = 0) := by
  constructor
  · intro jobs pid nj hpid hmem hnodup
    have hp : ¬ pid < 1 := by omega
    rcases deletejobLoop_spec pid jobs with ⟨hall, _⟩ | ⟨l1, j, l2, hl, hjp, hl1, heq⟩
    · obtain ⟨x, hx, _, hxp⟩ := mem_livePids.mp hmem
      exact absurd hxp (hall x hx)
    · have hdel : deletejob jobs pid nj =
          ⟨true, l1 ++ clearjob :: l2, maxjid (l1 ++ clearjob :: l2) + 1⟩ := by
        rw [deletejob, if_neg hp]
        simp [heq]
      subst hl
      have hpid0 : pid ≠ 0 := by omega
      have hj0 : j.pid ≠ 0 := by rw [hjp]; exact hpid0
      have hnotl2 : ∀ x ∈ l2, x.pid ≠ pid := by
        rw [livePids_append, livePids_cons, if_neg hj0, hjp] at hnodup
        intro x hx hxp
        have hin : pid ∈ livePids l2 :=
          mem_livePids.mpr ⟨x, hx, by rw [hxp]; exact hpid0, hxp⟩
        rcases List.nodup_append.mp hnodup with ⟨_, h2, _⟩
        exact (List.nodup_cons.mp h2).1 hin
      refine ⟨by rw [hdel], ?_, ?_⟩
      · rw [hdel]
        show getjobpid (l1 ++ clearjob :: l2) pid = none
        rw [getjobpid, if_neg hp]
        refine (getjobpidLoop_none_iff pid _ 0).mpr ?_
        intro x hx
        rcases List.mem_append.mp hx with hx1 | hx2
        · exact hl1 x hx1
        · rcases List.mem_cons.mp hx2 with rfl | hx3
          · show clearjob.pid ≠ pid
            intro hc
            exact hpid0 hc.symm
          · exact hnotl2 x hx3
      · intro p2 st cmd nj2 hp2
        rw [hdel]
        show (addjob (l1 ++ clearjob :: l2) p2 st cmd nj2).ok = true
        have hp2n : ¬ p2 < 1 := by omega
        rw [addjob, if_neg hp2n]
        rcases addjobLoop_spec p2 st cmd nj2 (l1 ++ clearjob :: l2) with
          ⟨hall2, _⟩ | ⟨_, _, _, _, _, _, heq2⟩
        · exact absurd rfl
            (hall2 clearjob (List.mem_append_right _ (List.mem_cons_self _ _)))
        · rw [heq2]
  · constructor
    · decide
    · decide

/-- Claim C7 witness: the scenario table, instantiating the universal
part at pid 100 and reusing the freed slot for pid 200. -/
theorem claim7_witness :
    (1 : Int) ≤ 100 ∧ 100 ∈ livePids scenJobs ∧ (livePids scenJobs).Nodup ∧
    (deletejob scenJobs 100 2).ok = true ∧
    getjobpid (deletejob scenJobs 100 2).jobs 100 = none ∧
    (addjob (deletejob scenJobs 100 2).jobs 200 BG "z\n" 1).ok = true := by
  have h := claim7_delete_frees.1 scenJobs 100 2 (by decide) (by decide) (by decide)
  exact ⟨by decide, by decide, by decide, h.1, h.2.1, h.2.2 200 BG "z\n" 1 (by decide)⟩

end Tsh
